import Mathlib

/-!
Verification of the `tensor_encoding` compression pipeline sources:
a shallow embedding of `tf_utils.py` (the deterministic CMWC pseudo-random
sequence generator and its derived helpers), of the argument validation in
`_cmwc_random_sequence`, of `simple_encoder.py` (the one-to-many encoder
facade), and of the stochastic quantization stage (modelled from the design
document, as `quantization.py` ships only with its test file).

Machine integers: all tensor arithmetic in `_cmwc_random_sequence` is
`tf.int64`, i.e. 64-bit two's complement with wrap-around on overflow.
We model an int64 value as an `Int` in the range `[-2^63, 2^63)` and make
every wrap explicit.  The emitted floating point values are exact dyadic
rationals (a 53-bit integer scaled by `2^-53`), so `ℚ` models the float64
outputs without rounding error.
-/

namespace TensorEncoding

/-- Unsigned 64-bit pattern (two's complement bits) of an integer. -/
def uint64 (x : Int) : Nat := (x % (2 ^ 64 : Int)).toNat

/-- Signed int64 value of a 64-bit pattern. -/
def int64OfBits (u : Nat) : Int :=
  if u < 2 ^ 63 then (u : Int) else (u : Int) - 2 ^ 64

/-- Wrap an integer into the int64 range (two's complement overflow). -/
def wrap64 (x : Int) : Int := int64OfBits (uint64 x)

/-- int64 addition with wrap-around. -/
def add64 (x y : Int) : Int := wrap64 (x + y)

/-- int64 subtraction with wrap-around. -/
def sub64 (x y : Int) : Int := wrap64 (x - y)

/-- int64 multiplication with wrap-around. -/
def mul64 (x y : Int) : Int := wrap64 (x * y)

/-- Embedding of `tf.bitwise.bitwise_and` on int64: AND of the two's complement bits. -/
def and64 (x y : Int) : Int := int64OfBits (uint64 x &&& uint64 y)

/-- Embedding of `tf.bitwise.bitwise_or` on int64: OR of the two's complement bits. -/
def or64 (x y : Int) : Int := int64OfBits (uint64 x ||| uint64 y)

/-- Embedding of `tf.bitwise.left_shift` on int64: shift the bit pattern, wrapping mod 2^64. -/
def shl64 (x : Int) (k : Nat) : Int := wrap64 (x * 2 ^ k)

/-- Embedding of `tf.bitwise.right_shift` on int64, which is an arithmetic shift: floor division
of the signed value by `2^k`. -/
def sshr64 (x : Int) (k : Nat) : Int := Int.fdiv x (2 ^ k)

/-! ### The CMWC generator, from `_cmwc_random_sequence` in `tf_utils.py` -/

/-- The multiplier `a = 3636507990` of the CMWC recurrence. -/
def cmwcA : Int := 3636507990

/-- The modulus `b = 2^32` of the CMWC recurrence. -/
def cmwcB : Int := 2 ^ 32

/-- One step of the seed-derivation recurrence `val = val**7 + val**6 + 1`
(the "PRBS7" line of `next_seed_fn`), in int64 arithmetic. -/
def nextSeed (v : Int) : Int := wrap64 (v ^ 7 + v ^ 6 + 1)

/-- The seed-construction `tf.while_loop` (`next_seed_fn`): starting from
`seed`, write the successive iterates of `nextSeed` into a TensorArray of
size `k`.  Entry `i` holds the `(i+1)`-st iterate, because the value is
updated before the first write. -/
def seedLoop : Nat → Int → List Int
  | 0, _ => []
  | k + 1, val =>
    let v := nextSeed val
    v :: seedLoop k v

/-- State threaded through the generation `tf.while_loop`: the per-stream bit
buffers `f`, the scalar accumulated-bit counter `bits`, the per-stream CMWC
state `q` and carries `c`, the emission counter `num`, and the TensorArray of
emitted float64 vectors (each of length `parallelism`), written sequentially
at indices `0, …, num-1`. -/
structure LoopSt where
  f : List Int
  bits : Nat
  q : List Int
  c : List Int
  num : Nat
  values : List (List Int)
deriving DecidableEq, Repr

/-- The mantissa of the float64 value emitted from a bit buffer `fi`: the
low 53 bits `f & (2^53 - 1)`.  The written float64 value is
`tf.cast(f & (2^53 - 1), tf.float64) * (1 / 2^53)`; both the cast and the
scaling are exact, so the float is the dyadic rational `m * 2^-53` and is
determined by `m` alone.  The loop state records these numerators; the
exact scaling to `ℚ` is applied in `cmwcJoined`, where the TensorArray is
flattened into the output (a bijective re-coding of the stored floats). -/
def emitVal (fi : Int) : Int := and64 fi (2 ^ 53 - 1)

/-- The exact value of the float64 with mantissa `m`: `m * (1 / 2^53)`. -/
def mantVal (m : Int) : ℚ := (m : ℚ) * (1 / 2 ^ 53)

/-- The vector `t = a * q + c` computed at the top of `cmwc_step`. -/
def stepT (s : LoopSt) : List Int :=
  List.zipWith (fun qi ci => add64 (mul64 cmwcA qi) ci) s.q s.c

/-- The carry update `c = b - 1 - tf.bitwise.right_shift(t, logb)`. -/
def stepC (s : LoopSt) : List Int :=
  (stepT s).map fun ti => sub64 (sub64 cmwcB 1) (sshr64 ti 32)

/-- The output bits `x = q = tf.bitwise.bitwise_and(t, b - 1)`. -/
def stepX (s : LoopSt) : List Int :=
  (stepT s).map fun ti => and64 ti (sub64 cmwcB 1)

/-- The buffer update `f = (f << logb) | x`. -/
def stepF (s : LoopSt) : List Int :=
  List.zipWith (fun fi xi => or64 (shl64 fi 32) xi) s.f (stepX s)

/-- One iteration of the `tf.while_loop` body `cmwc_step`: advance every
stream by the CMWC recurrence, accumulate 32 fresh bits into each buffer,
and when `bits >= 53` run `add_val`, which writes the emitted vector at index
`num`, performs `f += f >> 53`, subtracts 53 from `bits` and increments
`num`. -/
def cmwcStep (s : LoopSt) : LoopSt :=
  if 53 ≤ s.bits + 32 then
    { f := (stepF s).map fun fi => add64 fi (sshr64 fi 53)
      bits := s.bits + 32 - 53
      q := stepX s
      c := stepC s
      num := s.num + 1
      values := s.values ++ [(stepF s).map emitVal] }
  else
    { f := stepF s
      bits := s.bits + 32
      q := stepX s
      c := stepC s
      num := s.num
      values := s.values }

/-- The generation `tf.while_loop` (`condition` is `num < num_iters`),
written with an explicit iteration budget.  `cmwcLoopF_terminal` and
`cmwcLoopF_eq_iterate` below show the budget used by `cmwcRun` always
suffices, so this equals the limit of the unbounded loop. -/
def cmwcLoopF (I : Nat) : Nat → LoopSt → LoopSt
  | 0, s => s
  | fuel + 1, s => if s.num < I then cmwcLoopF I fuel (cmwcStep s) else s

/-- Least `m` with `n ≤ m^2`, i.e. `⌈√n⌉` for a natural `n`. -/
def ceilSqrt (n : Nat) : Nat := if n = 0 then 0 else Nat.sqrt (n - 1) + 1

/-- The constant `parallelism = int(math.ceil(math.sqrt(num_elements) / 10))`, computed
exactly: the ceiling of `√n / 10` equals `(⌈√n⌉ + 9) / 10` in `Nat`
(`spec_c4` proves the equality with the real ceiling). -/
def cmwcParallelism (n : Nat) : Nat := (ceilSqrt n + 9) / 10

/-- The constant `num_iters = num_elements // parallelism + 1`. -/
def cmwcNumIters (n : Nat) : Nat := n / cmwcParallelism n + 1

/-- The initial loop state: zero buffers and bit counter, `c = q` both equal
to the stacked seed TensorArray, empty values array. -/
def cmwcInitState (n : Nat) (seed : Int) : LoopSt :=
  let q := seedLoop (cmwcParallelism n) seed
  { f := List.replicate (cmwcParallelism n) 0
    bits := 0
    q := q
    c := q
    num := 0
    values := [] }

/-- Termination measure for the generation loop: the loop takes at most two
iterations per emission (32 fresh bits per iteration, 53 consumed per
emission, and the counter stays below 53 between iterations). -/
def cmwcMeasure (I : Nat) (s : LoopSt) : Nat :=
  2 * (I - s.num) + (if 21 ≤ s.bits then 0 else 1)

/-- The final loop state of `_cmwc_random_sequence` for `num_elements = n`. -/
def cmwcRun (n : Nat) (seed : Int) : LoopSt :=
  cmwcLoopF (cmwcNumIters n) (2 * cmwcNumIters n + 1) (cmwcInitState n seed)

/-- Embedding of `tf.reshape(values.stack(), [-1])`: the emitted vectors flattened in
emission order (row-major over the `[num_iters, parallelism]` stack), as
their exact float64 values. -/
def cmwcJoined (n : Nat) (seed : Int) : List ℚ :=
  ((cmwcRun n seed).values.flatten).map mantVal

/-- Embedding of the slice `values[:num_elements]`: the first `n` of the flattened generated values;
the surplus beyond `num_elements` is discarded. -/
def cmwcCoreOut (n : Nat) (seed : Int) : List ℚ := (cmwcJoined n seed).take n

/-! ### Argument validation of `_cmwc_random_sequence` -/

/-- The dynamic type of the `num_elements` argument at the Python call site:
a Python `int`, a Python `float`, or a NumPy int64 scalar (which is not a
Python `int`). -/
inductive NumArg where
  | pyInt (n : Int)
  | pyFloat (x : ℚ)
  | npInt64 (n : Int)
deriving DecidableEq

/-- The check `isinstance(num_elements, int)`. -/
def NumArg.isPyInt : NumArg → Bool
  | .pyInt _ => true
  | _ => false

/-- Tensor element dtypes relevant to the seed check. -/
inductive TfDType where
  | int64
  | int32
  | float32
deriving DecidableEq

/-- The dynamic type of the `seed` argument: a tensor of some dtype carrying
an integer value, or a plain (non-tensor) Python value. -/
inductive SeedArg where
  | tensor (dtype : TfDType) (v : Int)
  | pyVal (n : Int)
deriving DecidableEq

/-- The check `tf.contrib.framework.is_tensor(seed) and seed.dtype == tf.int64`. -/
def SeedArg.isInt64Tensor : SeedArg → Bool
  | .tensor .int64 _ => true
  | _ => false

/-- The integer value carried by the seed argument. -/
def SeedArg.value : SeedArg → Int
  | .tensor _ v => v
  | .pyVal n => n

/-- Python exception classes raised by `_cmwc_random_sequence`. -/
inductive TfError where
  | typeErr (msg : String)
  | valueErr (msg : String)
deriving DecidableEq

/-- Embedding of `_cmwc_random_sequence(num_elements, seed)` with its three synchronous
argument checks, in source order: `num_elements` must be a Python `int`
(else `TypeError`), must be positive (else `ValueError`), and `seed` must be
a `tf.int64` tensor (else `TypeError`); only then is the sequence
generated. -/
def cmwcRandomSequence (numElements : NumArg) (seed : SeedArg) :
    Except TfError (List ℚ) :=
  match numElements with
  | .pyFloat _ =>
    .error (.typeErr "The num_elements argument must be a Python integer.")
  | .npInt64 _ =>
    .error (.typeErr "The num_elements argument must be a Python integer.")
  | .pyInt n =>
    if n ≤ 0 then
      .error (.valueErr "The num_elements argument must be positive.")
    else if seed.isInt64Tensor then
      .ok (cmwcCoreOut n.toNat seed.value)
    else
      .error (.typeErr "The seed argument must be a tf.int64 Tensor.")

/-- Embedding of `tf.sign` on a float: `1` for positive, `-1` for negative, `0` for zero. -/
def tfSign (x : ℚ) : ℚ := if 0 < x then 1 else if x < 0 then -1 else 0

/-- The value-level computation of `random_signs`:
`tf.cast(tf.sign(_cmwc_random_sequence(...) - 0.5), dtype)`.  The cast from
float64 to any supported float dtype is exact on `{-1, 0, 1}`, so it is the
identity on values. -/
def randomSignsCore (n : Nat) (seed : Int) : List ℚ :=
  (cmwcCoreOut n seed).map fun v => tfSign (v - 1 / 2)

/-- Embedding of `random_signs(num_elements, seed, dtype)` including argument validation
(inherited from `_cmwc_random_sequence`). -/
def randomSigns (numElements : NumArg) (seed : SeedArg) :
    Except TfError (List ℚ) :=
  (cmwcRandomSequence numElements seed).map fun l =>
    l.map fun v => tfSign (v - 1 / 2)

/-! ### Spec-side definitions (refinement targets)

These restate parts of the algorithm in the words of the specification, to be
compared with the embedding above. -/

/-- The claimed per-stream CMWC intermediate `t = a*q + c` (int64). -/
def cmwcT (q c : Int) : Int := add64 (mul64 cmwcA q) c

/-- The claimed per-stream carry update `c' = b - 1 - (t >> 32)`. -/
def cmwcCNext (q c : Int) : Int :=
  sub64 (sub64 cmwcB 1) (sshr64 (cmwcT q c) 32)

/-- The claimed per-stream state update `q' = t & (b - 1)`. -/
def cmwcQNext (q c : Int) : Int := and64 (cmwcT q c) (sub64 cmwcB 1)

/-- The claimed per-stream seeds: entry `i` is the `(i+1)`-st iterate of
`v ← v^7 + v^6 + 1` starting at `seed`. -/
def specSeeds (k : Nat) (seed : Int) : List Int :=
  (List.range k).map fun i => nextSeed^[i + 1] seed

/-- The claimed buffer accumulation: shift `f` left 32 bits and OR in the
new output bits. -/
def specAccum (f x : Int) : Int := or64 (shl64 f 32) x

/-- The claimed emitted mantissa `f & (2^53 - 1)`. -/
def specEmit (f : Int) : Int := and64 f (2 ^ 53 - 1)

/-- The claimed emitted value `(f & (2^53 - 1)) / 2^53`. -/
def specEmitQ (f : Int) : ℚ := ((and64 f (2 ^ 53 - 1) : Int) : ℚ) / 2 ^ 53

/-- The buffer update after an emission as claim C2 words it: the 53
consumed bits are shifted out of `f`. -/
def specFPostClaim (f : Int) : Int := sshr64 f 53

/-- The buffer update after an emission as the code performs it:
`f += f >> 53` (the shifted copy is added to `f`, which keeps the consumed
bits in place). -/
def specFPostAmended (f : Int) : Int := add64 f (sshr64 f 53)

/-- The loop step as described by claim C2: identical to the code except
that after an emission the consumed bits are shifted out of the buffer. -/
def cmwcStepClaimC2 (s : LoopSt) : LoopSt :=
  if 53 ≤ s.bits + 32 then
    { f := (List.zipWith specAccum s.f
        (List.zipWith cmwcQNext s.q s.c)).map specFPostClaim
      bits := s.bits + 32 - 53
      q := List.zipWith cmwcQNext s.q s.c
      c := List.zipWith cmwcCNext s.q s.c
      num := s.num + 1
      values := s.values ++ [(List.zipWith specAccum s.f
        (List.zipWith cmwcQNext s.q s.c)).map specEmit] }
  else
    { f := List.zipWith specAccum s.f (List.zipWith cmwcQNext s.q s.c)
      bits := s.bits + 32
      q := List.zipWith cmwcQNext s.q s.c
      c := List.zipWith cmwcCNext s.q s.c
      num := s.num
      values := s.values }

/-- The loop step as the amended claim describes it: after an emission the
code adds `f >> 53` to `f` instead of shifting the consumed bits out. -/
def cmwcStepAmended (s : LoopSt) : LoopSt :=
  if 53 ≤ s.bits + 32 then
    { f := (List.zipWith specAccum s.f
        (List.zipWith cmwcQNext s.q s.c)).map specFPostAmended
      bits := s.bits + 32 - 53
      q := List.zipWith cmwcQNext s.q s.c
      c := List.zipWith cmwcCNext s.q s.c
      num := s.num + 1
      values := s.values ++ [(List.zipWith specAccum s.f
        (List.zipWith cmwcQNext s.q s.c)).map specEmit] }
  else
    { f := List.zipWith specAccum s.f (List.zipWith cmwcQNext s.q s.c)
      bits := s.bits + 32
      q := List.zipWith cmwcQNext s.q s.c
      c := List.zipWith cmwcCNext s.q s.c
      num := s.num
      values := s.values }

/-- Relational description of a complete run of the generation
`tf.while_loop` from state `s`: `k` is the first iteration index at which
the condition `num < I` fails. -/
def cmwcTerminalIdx (I : Nat) (s : LoopSt) (k : Nat) : Prop :=
  (∀ j < k, (cmwcStep^[j] s).num < I) ∧ I ≤ (cmwcStep^[k] s).num

/-- The relation `CmwcGenerates n seed out` holds iff a call of the generator body with
arguments `(n, seed)` can terminate with output `out`: the while loop,
started from the initial state determined by `(n, seed)`, first fails its
condition at some iteration `k`, and `out` is the flattened value array of
that final state truncated to `n` elements.  The output is determined by
`(n, seed)` alone; `spec_c1` proves it is unique. -/
def CmwcGenerates (n : Nat) (seed : Int) (out : List ℚ) : Prop :=
  ∃ k, cmwcTerminalIdx (cmwcNumIters n) (cmwcInitState n seed) k ∧
    out = (((cmwcStep^[k] (cmwcInitState n seed)).values.flatten).map mantVal).take n

/-! ### Stochastic quantization stage

`quantization.py` (class `PRNGUniformQuantizationEncodingStage`) is not part
of the sources; only its test file is.  The stage is therefore modelled from
the spec, section 4.2. -/

/-- Modelled from the spec: stochastic rounding in
`PRNGUniformQuantizationEncodingStage.encode` of the missing
`quantization.py` — "for scaled value `s`, output `floor(s)` with
probability `ceil(s)-s`, else `ceil(s)` — implemented by drawing one uniform
random value per element (via 4.1) and comparing to the fractional part".
The per-element uniform draw is the explicit parameter `u ∈ [0,1)`. -/
def stochasticRound (s u : ℚ) : ℚ := ⌊s⌋ + (if u < s - ⌊s⌋ then 1 else 0)

/-- Modelled from the spec: the per-element encode map of the missing
`quantization.py` — if `max == min` the output is the constant `min`;
otherwise normalize `y = (x - min) / (max - min)`, scale to
`[0, 2^bits - 1]` and round stochastically. -/
def quantEncode (b : Nat) (mn mx x u : ℚ) : ℚ :=
  if mx = mn then mn
  else stochasticRound ((x - mn) / (mx - mn) * (2 ^ b - 1)) u

/-- Modelled from the spec: the per-element decode map of the missing
`quantization.py` — `x_hat = encoded / (2^bits - 1) * (max - min) + min`. -/
def quantDecode (b : Nat) (mn mx e : ℚ) : ℚ := e / (2 ^ b - 1) * (mx - mn) + mn

/-- The dynamic type of the `bits` constructor argument: a Python `int` or
`float`. -/
inductive PyNumber where
  | int (n : Int)
  | float (x : ℚ)
deriving DecidableEq

/-- Modelled from the spec: the constructor validation of the missing
`quantization.py` — `PRNGUniformQuantizationEncodingStage(bits)` accepts an
integer in `[1, 16]` and otherwise fails with an error whose message
indicates "integer between 1 and 16". -/
def prngStageCtor (b : PyNumber) : Except String Int :=
  match b with
  | .int n => if 1 ≤ n ∧ n ≤ 16 then .ok n else .error "integer between 1 and 16"
  | .float _ => .error "integer between 1 and 16"

/-- Invariant of the generation loop: the three per-stream vectors keep
length `parallelism`, the TensorArray holds exactly `num` written vectors,
each of length `parallelism` with entries in `[0, 1)`, and `num` never
exceeds `num_iters`. -/
def LoopInv (p I : Nat) (s : LoopSt) : Prop :=
  s.f.length = p ∧ s.q.length = p ∧ s.c.length = p ∧
  s.values.length = s.num ∧ s.num ≤ I ∧
  (∀ v ∈ s.values, v.length = p ∧ ∀ m ∈ v, 0 ≤ m ∧ m < 2 ^ 53)

/-! ### The one-to-many encoder facade, from `simple_encoder.py`

`SimpleEncoder` wraps an `Encoder` object exposing `initial_state`,
`get_params`, `encode`, `update_state` and `decode`.  The wrapped object and
the tensor payloads are abstract type parameters here; the flat
string-keyed wire mapping produced by `nest.flatten_with_joined_string_paths`
is abstracted as the `EncodedPayload` record (its `{encoded_tensors, params,
shapes}` ownership), which is all claim C9 depends on. -/

/-- The interface of the wrapped `core_encoder.Encoder` used by
`SimpleEncoder`: initial state, parameter derivation, encode, and state
update. -/
structure CoreEncoder (X St P E U Sh : Type) where
  initialState : St
  getParams : St → P × P
  encode : X → P → E × U × Sh
  updateState : St → U → St

/-- The `{encoded_tensors, params, shapes}` structure flattened onto the
wire by `encode_fn`. -/
structure EncodedPayload (P E Sh : Type) where
  encodedTensors : E
  params : P
  shapes : Sh

/-- Embedding of `initial_state()` of `SimpleEncoder`: defers to the wrapped encoder. -/
def simpleInitialState {X St P E U Sh : Type}
    (enc : CoreEncoder X St P E U Sh) : St :=
  enc.initialState

/-- The traced `encode_fn` of `SimpleEncoder`: derive params from the state,
encode, update the state, and return the encoded payload (carrying the
decode params and input shapes) together with the updated state. -/
def simpleEncodeFn {X St P E U Sh : Type} (enc : CoreEncoder X St P E U Sh)
    (x : X) (state : St) : EncodedPayload P E Sh × St :=
  let ps := enc.getParams state
  let r := enc.encode x ps.1
  (⟨r.1, ps.2, r.2.2⟩, enc.updateState state r.2.1)

/-- Embedding of `SimpleEncoder.encode(x, state=None)`: when `state` is omitted (`none`),
it defaults to a freshly computed `initial_state()`. -/
def simpleEncode {X St P E U Sh : Type} (enc : CoreEncoder X St P E U Sh)
    (x : X) (state : Option St) : EncodedPayload P E Sh × St :=
  match state with
  | none => simpleEncodeFn enc x (simpleInitialState enc)
  | some st => simpleEncodeFn enc x st

/-! ### Helper lemmas about the int64 model and the loop -/

theorem and64_mask53_bounds (x : Int) :
    0 ≤ and64 x (2 ^ 53 - 1) ∧ and64 x (2 ^ 53 - 1) < 2 ^ 53 := by
  have hm : uint64 (2 ^ 53 - 1 : Int) = 2 ^ 53 - 1 := by decide
  have hle : uint64 x &&& uint64 (2 ^ 53 - 1 : Int) ≤ 2 ^ 53 - 1 := by
    rw [hm]; exact Nat.and_le_right
  unfold and64 int64OfBits
  rw [if_pos (by omega : uint64 x &&& uint64 (2 ^ 53 - 1 : Int) < 2 ^ 63)]
  constructor
  · exact Int.natCast_nonneg _
  · exact_mod_cast Nat.lt_of_le_of_lt hle (by norm_num)

theorem emitVal_bounds (fi : Int) : 0 ≤ emitVal fi ∧ emitVal fi < 2 ^ 53 :=
  and64_mask53_bounds fi

theorem mantVal_bounds {m : Int} (h0 : 0 ≤ m) (h1 : m < 2 ^ 53) :
    0 ≤ mantVal m ∧ mantVal m < 1 := by
  unfold mantVal
  have h0q : (0 : ℚ) ≤ (m : ℚ) := by exact_mod_cast h0
  have h1q : (m : ℚ) < 2 ^ 53 := by exact_mod_cast h1
  constructor
  · positivity
  · have : (m : ℚ) * (1 / 2 ^ 53) < (2 ^ 53 : ℚ) * (1 / 2 ^ 53) := by
      apply mul_lt_mul_of_pos_right h1q
      norm_num
    simpa using this

theorem cmwcStep_num (s : LoopSt) :
    (cmwcStep s).num = if 53 ≤ s.bits + 32 then s.num + 1 else s.num := by
  unfold cmwcStep; split <;> rfl

theorem cmwcStep_bits (s : LoopSt) :
    (cmwcStep s).bits = if 53 ≤ s.bits + 32 then s.bits + 32 - 53 else s.bits + 32 := by
  unfold cmwcStep; split <;> rfl

theorem cmwcStep_q (s : LoopSt) : (cmwcStep s).q = stepX s := by
  unfold cmwcStep; split <;> rfl

theorem cmwcStep_c (s : LoopSt) : (cmwcStep s).c = stepC s := by
  unfold cmwcStep; split <;> rfl

theorem cmwcStep_f (s : LoopSt) :
    (cmwcStep s).f = if 53 ≤ s.bits + 32 then
      (stepF s).map fun fi => add64 fi (sshr64 fi 53) else stepF s := by
  unfold cmwcStep; split <;> rfl

theorem cmwcStep_values (s : LoopSt) :
    (cmwcStep s).values = if 53 ≤ s.bits + 32 then
      s.values ++ [(stepF s).map emitVal] else s.values := by
  unfold cmwcStep; split <;> rfl

theorem stepT_length (s : LoopSt) :
    (stepT s).length = min s.q.length s.c.length := by
  simp [stepT]

theorem stepX_length (s : LoopSt) :
    (stepX s).length = min s.q.length s.c.length := by
  simp [stepX, stepT_length]

theorem stepC_length (s : LoopSt) :
    (stepC s).length = min s.q.length s.c.length := by
  simp [stepC, stepT_length]

theorem stepF_length (s : LoopSt) :
    (stepF s).length = min s.f.length (stepX s).length := by
  simp [stepF]

theorem loopInv_step {p I : Nat} {s : LoopSt} (hInv : LoopInv p I s)
    (h : s.num < I) : LoopInv p I (cmwcStep s) := by
  obtain ⟨hf, hq, hc, hv, hnum, hvals⟩ := hInv
  have hx : (stepX s).length = p := by rw [stepX_length, hq, hc]; omega
  have hcl : (stepC s).length = p := by rw [stepC_length, hq, hc]; omega
  have hfl : (stepF s).length = p := by rw [stepF_length, hf, hx]; omega
  refine ⟨?_, ?_, ?_, ?_, ?_, ?_⟩
  · rw [cmwcStep_f]; split
    · simpa using hfl
    · exact hfl
  · rw [cmwcStep_q]; exact hx
  · rw [cmwcStep_c]; exact hcl
  · rw [cmwcStep_values, cmwcStep_num]; split <;> simp [hv]
  · rw [cmwcStep_num]; split <;> omega
  · rw [cmwcStep_values]; split
    · intro v hvmem
      rcases List.mem_append.mp hvmem with hmem | hmem
      · exact hvals v hmem
      · have hveq : v = (stepF s).map emitVal := by simpa using hmem
        subst hveq
        refine ⟨by simpa using hfl, ?_⟩
        intro y hy
        obtain ⟨fi, _, rfl⟩ := List.mem_map.mp hy
        exact emitVal_bounds fi
    · exact hvals

theorem cmwcMeasure_step {I : Nat} {s : LoopSt} (h : s.num < I) :
    cmwcMeasure I (cmwcStep s) < cmwcMeasure I s := by
  unfold cmwcMeasure
  rw [cmwcStep_num, cmwcStep_bits]
  split_ifs <;> omega

theorem cmwcLoopF_terminal {I : Nat} :
    ∀ fuel s, cmwcMeasure I s ≤ fuel → I ≤ (cmwcLoopF I fuel s).num := by
  intro fuel
  induction fuel with
  | zero =>
    intro s hs
    unfold cmwcMeasure at hs
    have : I ≤ s.num := by split_ifs at hs <;> omega
    simpa [cmwcLoopF] using this
  | succ fuel ih =>
    intro s hs
    by_cases h : s.num < I
    · have hlt := cmwcMeasure_step (s := s) (I := I) h
      have : cmwcMeasure I (cmwcStep s) ≤ fuel := by omega
      simpa [cmwcLoopF, h] using ih (cmwcStep s) this
    · simpa [cmwcLoopF, h] using Nat.le_of_not_lt h

theorem cmwcLoopF_inv {p I : Nat} :
    ∀ fuel s, LoopInv p I s → LoopInv p I (cmwcLoopF I fuel s) := by
  intro fuel
  induction fuel with
  | zero => intro s hs; simpa [cmwcLoopF] using hs
  | succ fuel ih =>
    intro s hs
    by_cases h : s.num < I
    · simpa [cmwcLoopF, h] using ih (cmwcStep s) (loopInv_step hs h)
    · simpa [cmwcLoopF, h] using hs

theorem exists_terminalIdx {I : Nat} :
    ∀ m s, cmwcMeasure I s ≤ m → ∃ k ≤ m, cmwcTerminalIdx I s k := by
  intro m
  induction m with
  | zero =>
    intro s hs
    refine ⟨0, le_rfl, fun j hj => absurd hj (Nat.not_lt_zero j), ?_⟩
    unfold cmwcMeasure at hs
    have : I ≤ s.num := by split_ifs at hs <;> omega
    simpa using this
  | succ m ih =>
    intro s hs
    by_cases h : s.num < I
    · have hlt := cmwcMeasure_step (s := s) (I := I) h
      obtain ⟨k, hk, hterm⟩ := ih (cmwcStep s) (by omega)
      refine ⟨k + 1, by omega, ?_, ?_⟩
      · intro j hj
        match j with
        | 0 => simpa using h
        | j + 1 =>
          rw [Function.iterate_succ_apply]
          exact hterm.1 j (by omega)
      · rw [Function.iterate_succ_apply]
        exact hterm.2
    · exact ⟨0, by omega, fun j hj => absurd hj (Nat.not_lt_zero j),
        by simpa using Nat.le_of_not_lt h⟩

theorem terminalIdx_unique {I : Nat} {s : LoopSt} {k1 k2 : Nat}
    (h1 : cmwcTerminalIdx I s k1) (h2 : cmwcTerminalIdx I s k2) : k1 = k2 := by
  rcases lt_trichotomy k1 k2 with h | h | h
  · exact absurd h1.2 (Nat.not_le_of_lt (h2.1 k1 h))
  · exact h
  · exact absurd h2.2 (Nat.not_le_of_lt (h1.1 k2 h))

theorem cmwcLoopF_eq_iterate {I : Nat} :
    ∀ k fuel s, cmwcTerminalIdx I s k → k ≤ fuel →
      cmwcLoopF I fuel s = cmwcStep^[k] s := by
  intro k
  induction k with
  | zero =>
    intro fuel s hterm _
    have hstop : ¬ s.num < I := Nat.not_lt.mpr (by simpa using hterm.2)
    match fuel with
    | 0 => rfl
    | fuel + 1 => simp [cmwcLoopF, hstop]
  | succ k ih =>
    intro fuel s hterm hle
    match fuel with
    | fuel + 1 =>
      have hcond : s.num < I := by simpa using hterm.1 0 (Nat.succ_pos k)
      have hterm' : cmwcTerminalIdx I (cmwcStep s) k := by
        constructor
        · intro j hj
          have := hterm.1 (j + 1) (by omega)
          rwa [Function.iterate_succ_apply] at this
        · have := hterm.2
          rwa [Function.iterate_succ_apply] at this
      rw [Function.iterate_succ_apply]
      simpa [cmwcLoopF, hcond] using ih fuel (cmwcStep s) hterm' (by omega)

theorem seedLoop_length : ∀ (k : Nat) (v : Int), (seedLoop k v).length = k := by
  intro k
  induction k with
  | zero => intro v; rfl
  | succ k ih => intro v; simp [seedLoop, ih]

theorem cmwcInitState_inv (n : Nat) (seed : Int) :
    LoopInv (cmwcParallelism n) (cmwcNumIters n) (cmwcInitState n seed) := by
  refine ⟨by simp [cmwcInitState], by simp [cmwcInitState, seedLoop_length],
    by simp [cmwcInitState, seedLoop_length], by simp [cmwcInitState],
    by simp [cmwcInitState], ?_⟩
  intro v hv
  simp [cmwcInitState] at hv

theorem cmwcInitState_measure (n : Nat) (seed : Int) :
    cmwcMeasure (cmwcNumIters n) (cmwcInitState n seed) = 2 * cmwcNumIters n + 1 := by
  simp [cmwcMeasure, cmwcInitState]

theorem cmwcRun_inv (n : Nat) (seed : Int) :
    LoopInv (cmwcParallelism n) (cmwcNumIters n) (cmwcRun n seed) :=
  cmwcLoopF_inv _ _ (cmwcInitState_inv n seed)

theorem cmwcRun_num (n : Nat) (seed : Int) :
    (cmwcRun n seed).num = cmwcNumIters n := by
  have hge : cmwcNumIters n ≤ (cmwcRun n seed).num := by
    apply cmwcLoopF_terminal
    rw [cmwcInitState_measure]
  have hle := (cmwcRun_inv n seed).2.2.2.2.1
  omega

theorem flatten_length_const {p : Nat} :
    ∀ L : List (List Int), (∀ v ∈ L, v.length = p) → L.flatten.length = L.length * p := by
  intro L
  induction L with
  | nil => intro _; simp
  | cons hd tl ih =>
    intro hall
    have hhd : hd.length = p := hall hd (List.mem_cons_self hd tl)
    have htl := ih fun v hv => hall v (List.mem_cons_of_mem hd hv)
    simp [List.flatten_cons, hhd, htl, Nat.succ_mul, Nat.add_comm]

theorem cmwcParallelism_pos {n : Nat} (hn : 0 < n) : 0 < cmwcParallelism n := by
  have h1 : 1 ≤ ceilSqrt n := by
    unfold ceilSqrt
    rw [if_neg (by omega : ¬ n = 0)]
    omega
  unfold cmwcParallelism
  have : (1 * 10) ≤ ceilSqrt n + 9 := by omega
  exact Nat.le_div_iff_mul_le (by norm_num) |>.mpr this

theorem lt_numIters_mul_parallelism {n : Nat} (hn : 0 < n) :
    n < cmwcNumIters n * cmwcParallelism n := by
  have hp := cmwcParallelism_pos hn
  set p := cmwcParallelism n with hpdef
  have hdm := Nat.div_add_mod n p
  have hmod : n % p < p := Nat.mod_lt n hp
  calc n = p * (n / p) + n % p := hdm.symm
    _ < p * (n / p) + p := by omega
    _ = (n / p + 1) * p := by ring
    _ = cmwcNumIters n * p := by rw [cmwcNumIters]

theorem stepX_eq (s : LoopSt) : stepX s = List.zipWith cmwcQNext s.q s.c := by
  unfold stepX stepT cmwcQNext cmwcT
  rw [List.map_zipWith]

theorem stepC_eq (s : LoopSt) : stepC s = List.zipWith cmwcCNext s.q s.c := by
  unfold stepC stepT cmwcCNext cmwcT
  rw [List.map_zipWith]

theorem stepF_eq (s : LoopSt) :
    stepF s = List.zipWith specAccum s.f (stepX s) := rfl

theorem emitVal_eq_specEmit : emitVal = specEmit := by
  funext fi
  unfold emitVal specEmit
  ring

theorem seedLoop_eq_specSeeds :
    ∀ (k : Nat) (v : Int), seedLoop k v = specSeeds k v := by
  intro k
  induction k with
  | zero => intro v; rfl
  | succ k ih =>
    intro v
    show nextSeed v :: seedLoop k (nextSeed v) = specSeeds (k + 1) v
    rw [ih (nextSeed v)]
    unfold specSeeds
    rw [List.range_succ_eq_map, List.map_cons, List.map_map]
    congr 1

theorem cmwcParallelism_eq_ceil (n : Nat) :
    cmwcParallelism n = ⌈Real.sqrt n / 10⌉₊ := by
  rcases Nat.eq_zero_or_pos n with rfl | hn
  · simp [cmwcParallelism, ceilSqrt]
  · set m := ceilSqrt n with hm
    set p := cmwcParallelism n with hp
    have hm1 : 1 ≤ m := by
      rw [hm]; unfold ceilSqrt; rw [if_neg (by omega : ¬ n = 0)]; omega
    have hnm : n ≤ m * m := by
      rw [hm]; unfold ceilSqrt; rw [if_neg (by omega : ¬ n = 0)]
      have := Nat.lt_succ_sqrt (n - 1)
      simp only [Nat.succ_eq_add_one] at this
      omega
    have hmn : (m - 1) * (m - 1) < n := by
      rw [hm]; unfold ceilSqrt; rw [if_neg (by omega : ¬ n = 0)]
      have := Nat.sqrt_le (n - 1)
      simp only [Nat.add_sub_cancel]
      omega
    have hdm := Nat.div_add_mod (m + 9) 10
    have hmod : (m + 9) % 10 < 10 := Nat.mod_lt _ (by norm_num)
    have hp10 : m ≤ 10 * p ∧ 10 * p ≤ m + 9 := by
      constructor <;> (rw [hp]; unfold cmwcParallelism; rw [← hm]; omega)
    have hp1 : 1 ≤ p := by omega
    symm
    rw [Nat.ceil_eq_iff (by omega : p ≠ 0)]
    constructor
    · rw [lt_div_iff₀ (by norm_num : (0:ℝ) < 10)]
      rw [Real.lt_sqrt (by positivity)]
      have hnat : (10 * (p - 1)) * (10 * (p - 1)) < n := by
        have h1 : 10 * (p - 1) ≤ m - 1 := by omega
        calc (10 * (p - 1)) * (10 * (p - 1)) ≤ (m - 1) * (m - 1) :=
              Nat.mul_le_mul h1 h1
          _ < n := hmn
      have : ((10 * (p - 1) : ℕ) : ℝ) * ((10 * (p - 1) : ℕ) : ℝ) < (n : ℝ) := by
        exact_mod_cast hnat
      push_cast [Nat.cast_sub hp1] at this ⊢
      nlinarith
    · rw [div_le_iff₀ (by norm_num : (0:ℝ) < 10)]
      rw [Real.sqrt_le_left (by positivity)]
      have hnat : n ≤ (10 * p) * (10 * p) := by
        calc n ≤ m * m := hnm
          _ ≤ (10 * p) * (10 * p) := Nat.mul_le_mul hp10.1 hp10.1
      have : (n : ℝ) ≤ ((10 * p : ℕ) : ℝ) * ((10 * p : ℕ) : ℝ) := by
        exact_mod_cast hnat
      push_cast at this ⊢
      nlinarith

/-! ### Claim theorems -/

/-- C1: for every positive `num_elements` and int64 `seed`, the generator
body terminates with output `cmwcCoreOut n seed`, and any two terminating
runs of the while loop from the same `(num_elements, seed)` produce the same
output sequence: the output is a pure function of `(num_elements, seed)`,
with no dependence on any other state. -/
theorem spec_c1 (n : Nat) (_hn : 0 < n) (seed : Int) :
    CmwcGenerates n seed (cmwcCoreOut n seed) ∧
    ∀ out1 out2, CmwcGenerates n seed out1 → CmwcGenerates n seed out2 →
      out1 = out2 := by
  constructor
  · obtain ⟨k, hk, hterm⟩ := exists_terminalIdx (I := cmwcNumIters n)
      (2 * cmwcNumIters n + 1) (cmwcInitState n seed)
      (by rw [cmwcInitState_measure])
    refine ⟨k, hterm, ?_⟩
    unfold cmwcCoreOut cmwcJoined cmwcRun
    rw [cmwcLoopF_eq_iterate k _ _ hterm hk]
  · rintro out1 out2 ⟨k1, h1, e1⟩ ⟨k2, h2, e2⟩
    have hk : k1 = k2 := terminalIdx_unique h1 h2
    subst hk
    rw [e1, e2]

/-- C3: for every positive `num_elements` and int64 `seed`, the generator
returns exactly `num_elements` values, each in `[0, 1)`; the number of
internally generated values strictly exceeds `num_elements` and the surplus
is truncated away. -/
theorem spec_c3 (n : Nat) (hn : 0 < n) (seed : Int) :
    cmwcRandomSequence (.pyInt (n : Int)) (.tensor .int64 seed) =
      .ok (cmwcCoreOut n seed) ∧
    (cmwcCoreOut n seed).length = n ∧
    n < (cmwcJoined n seed).length ∧
    ∀ x ∈ cmwcCoreOut n seed, 0 ≤ x ∧ x < 1 := by
  have hinv := cmwcRun_inv n seed
  obtain ⟨-, -, -, hvlen, -, hvals⟩ := hinv
  have hjoin : (cmwcJoined n seed).length =
      cmwcNumIters n * cmwcParallelism n := by
    unfold cmwcJoined
    rw [List.length_map, flatten_length_const _ (fun v hv => (hvals v hv).1),
      hvlen, cmwcRun_num]
  have hlt : n < (cmwcJoined n seed).length := by
    rw [hjoin]; exact lt_numIters_mul_parallelism hn
  refine ⟨?_, ?_, hlt, ?_⟩
  · have hpos : ¬ (n : Int) ≤ 0 := by omega
    simp [cmwcRandomSequence, hpos, SeedArg.isInt64Tensor, SeedArg.value]
  · unfold cmwcCoreOut
    rw [List.length_take]
    omega
  · intro x hx
    have hx' : x ∈ cmwcJoined n seed := List.take_subset n _ hx
    obtain ⟨m, hm, rfl⟩ := List.mem_map.mp hx'
    obtain ⟨v, hv, hmv⟩ := List.mem_flatten.mp hm
    obtain ⟨h0, h1⟩ := (hvals v hv).2 m hmv
    exact mantVal_bounds h0 h1

/-- C2 counterexample: at a concrete loop state the code's step differs from
the step described by the claim.  With buffer `f = [1]` and `bits = 21`, the
iteration emits a value, after which the code leaves `f = [2^32 + 1]`
(it computes `f += f >> 53`), while the claimed shift-out would leave
`f = [0]`. -/
theorem spec_c2_counterexample :
    cmwcStep ⟨[1], 21, [0], [1], 0, []⟩ ≠
      cmwcStepClaimC2 ⟨[1], 21, [0], [1], 0, []⟩ := by
  decide

/-- C2 (amended): each CMWC step accumulates the 32 new output bits into the
per-stream buffer `f` by shifting `f` left 32 bits and OR-ing in the new
bits; whenever the buffer counter reaches 53 bits the generator emits
`(f & (2^53-1)) / 2^53` as one output value, but it then performs
`f += f >> 53` (adding the shifted copy to the buffer) rather than shifting
the 53 consumed bits out of `f`. -/
theorem spec_c2_amended :
    (∀ s : LoopSt, cmwcStep s = cmwcStepAmended s) ∧
    (∀ fi : Int, mantVal (emitVal fi) = specEmitQ fi) := by
  constructor
  · intro s
    unfold cmwcStep cmwcStepAmended
    rw [← stepX_eq, ← stepC_eq, ← stepF_eq, emitVal_eq_specEmit]
    rfl
  · intro fi
    unfold mantVal emitVal specEmitQ
    ring

/-- C4: the generator uses `parallelism = ceil(sqrt(num_elements)/10)`
sub-streams; their starting values are the iterates of `v ← v^7 + v^6 + 1`
from the seed, reused as the initial carries (`c0 = q0`); and each stream
advances by `t = a*q + c`, `c' = b - 1 - (t >> 32)`, `q' = t & (b-1)` with
`a = 3636507990` and `b = 2^32` (all in int64 arithmetic). -/
theorem spec_c4 :
    (∀ n : Nat, cmwcParallelism n = ⌈Real.sqrt n / 10⌉₊) ∧
    (∀ (n : Nat) (seed : Int),
      (cmwcInitState n seed).q = specSeeds (cmwcParallelism n) seed ∧
      (cmwcInitState n seed).c = (cmwcInitState n seed).q) ∧
    (∀ s : LoopSt,
      (cmwcStep s).q = List.zipWith cmwcQNext s.q s.c ∧
      (cmwcStep s).c = List.zipWith cmwcCNext s.q s.c) ∧
    cmwcA = 3636507990 ∧ cmwcB = 2 ^ 32 := by
  refine ⟨cmwcParallelism_eq_ceil, ?_, ?_, rfl, rfl⟩
  · intro n seed
    exact ⟨seedLoop_eq_specSeeds _ seed, rfl⟩
  · intro s
    rw [cmwcStep_q, cmwcStep_c, stepX_eq, stepC_eq]
    exact ⟨rfl, rfl⟩

/-- C1 witness: the theorem instantiated at `num_elements = 1`, `seed = 0`. -/
theorem spec_c1_witness :
    0 < 1 ∧
    (CmwcGenerates 1 0 (cmwcCoreOut 1 0) ∧
      ∀ out1 out2, CmwcGenerates 1 0 out1 → CmwcGenerates 1 0 out2 →
        out1 = out2) :=
  ⟨Nat.one_pos, spec_c1 1 Nat.one_pos 0⟩

/-- C3 witness: the theorem instantiated at `num_elements = 1`, `seed = 0`. -/
theorem spec_c3_witness :
    0 < 1 ∧
    (cmwcRandomSequence (.pyInt ((1 : Nat) : Int)) (.tensor .int64 0) =
        .ok (cmwcCoreOut 1 0) ∧
      (cmwcCoreOut 1 0).length = 1 ∧
      1 < (cmwcJoined 1 0).length ∧
      ∀ x ∈ cmwcCoreOut 1 0, 0 ≤ x ∧ x < 1) :=
  ⟨Nat.one_pos, spec_c3 1 Nat.one_pos 0⟩

/-- C5: for every bit-width `bits ≥ 1` (in particular for
`bits ∈ {1,2,3,4,7,8,9,16}`), every element `x` of an input with extremes
`min ≤ x ≤ max`, and every per-element uniform draw `u ∈ [0, 1)`, the
round-trip error of the stochastic quantization stage is at most
`(max - min) / (2^bits - 1)`; when the input lies in `[-1, 1]` this is at
most `2 / (2^bits - 1)`. -/
theorem spec_c5 (b : Nat) (hb : 1 ≤ b) (mn mx x u : ℚ)
    (hmn : mn ≤ x) (hmx : x ≤ mx) (hu0 : 0 ≤ u) (_hu1 : u < 1) :
    |x - quantDecode b mn mx (quantEncode b mn mx x u)| ≤
      (mx - mn) / (2 ^ b - 1) ∧
    (-1 ≤ mn → mx ≤ 1 →
      |x - quantDecode b mn mx (quantEncode b mn mx x u)| ≤
        2 / (2 ^ b - 1)) := by
  have hKpos : (0 : ℚ) < 2 ^ b - 1 := by
    have h2 : (2 : ℚ) ≤ 2 ^ b := by
      calc (2 : ℚ) = 2 ^ 1 := (pow_one 2).symm
        _ ≤ 2 ^ b := pow_le_pow_right₀ (by norm_num) hb
    linarith
  have hround : ∀ sc : ℚ, |sc - stochasticRound sc u| ≤ 1 := by
    intro sc
    have h1 := Int.floor_le sc
    have h2 := Int.lt_floor_add_one sc
    unfold stochasticRound
    split_ifs with hc
    · rw [abs_le]; constructor <;> linarith
    · rw [abs_le]; constructor <;> linarith
  rcases eq_or_lt_of_le (hmn.trans hmx) with heq | hlt
  · have hxeq : x = mn := le_antisymm (heq ▸ hmx) hmn
    have henc : quantEncode b mn mx x u = mn := by
      rw [quantEncode, if_pos heq.symm]
    have hdec : quantDecode b mn mx mn = mn := by
      rw [quantDecode, ← heq]; ring
    rw [henc, hdec, hxeq, sub_self, abs_zero]
    constructor
    · rw [← heq, sub_self, zero_div]
    · intro _ _
      exact div_nonneg (by norm_num) (le_of_lt hKpos)
  · have hmxmn : (0 : ℚ) < mx - mn := by linarith
    set e := stochasticRound ((x - mn) / (mx - mn) * (2 ^ b - 1)) u with he
    have henc : quantEncode b mn mx x u = e := by
      rw [quantEncode, if_neg (by linarith : ¬ mx = mn)]
    have key : x - quantDecode b mn mx e =
        ((x - mn) / (mx - mn) * (2 ^ b - 1) - e) / (2 ^ b - 1) * (mx - mn) := by
      rw [quantDecode]
      field_simp
      ring
    have habs : |x - quantDecode b mn mx (quantEncode b mn mx x u)| ≤
        (mx - mn) / (2 ^ b - 1) := by
      rw [henc, key, abs_mul, abs_div]
      rw [abs_of_pos hKpos, abs_of_pos hmxmn]
      calc |(x - mn) / (mx - mn) * (2 ^ b - 1) - e| / (2 ^ b - 1) * (mx - mn)
          ≤ 1 / (2 ^ b - 1) * (mx - mn) := by
            gcongr
            exact hround _
        _ = (mx - mn) / (2 ^ b - 1) := by ring
    refine ⟨habs, fun hm1 hm2 => habs.trans ?_⟩
    gcongr
    linarith

/-- C5 witness: `bits = 1`, `min = 0`, `max = 1`, `x = 1/2`, `u = 0`. -/
theorem spec_c5_witness :
    (1 ≤ 1 ∧ (0 : ℚ) ≤ 1 / 2 ∧ (1 / 2 : ℚ) ≤ 1 ∧ (0 : ℚ) ≤ 0 ∧ (0 : ℚ) < 1) ∧
    |(1 / 2 : ℚ) - quantDecode 1 0 1 (quantEncode 1 0 1 (1 / 2) 0)| ≤
      (1 - 0) / (2 ^ 1 - 1) ∧
    (-1 ≤ (0 : ℚ) → (1 : ℚ) ≤ 1 →
      |(1 / 2 : ℚ) - quantDecode 1 0 1 (quantEncode 1 0 1 (1 / 2) 0)| ≤
        2 / (2 ^ 1 - 1)) :=
  ⟨⟨le_rfl, by norm_num, by norm_num, le_rfl, by norm_num⟩,
    spec_c5 1 le_rfl 0 1 (1 / 2) 0 (by norm_num) (by norm_num) le_rfl
      (by norm_num)⟩

/-- C6 counterexample: for `num_elements = 2` and the valid int64 seed
`9125515503767732655`, the second generated value is exactly `1/2`, so the
second element of `random_signs` is `sign(0) = 0`, which is neither `-1`
nor `+1`. -/
theorem spec_c6_counterexample :
    ¬ ∀ y ∈ randomSignsCore 2 9125515503767732655, y = -1 ∨ y = 1 := by
  have hm : ((cmwcRun 2 9125515503767732655).values.flatten).take 2 =
      [6102460423778311, 4503599627370496] := by decide
  have hcore : cmwcCoreOut 2 9125515503767732655 =
      [mantVal 6102460423778311, mantVal 4503599627370496] := by
    unfold cmwcCoreOut cmwcJoined
    rw [← List.map_take, hm]
    rfl
  intro hall
  have hsign : tfSign (mantVal 4503599627370496 - 1 / 2) = 0 := by
    have hz : mantVal 4503599627370496 - 1 / 2 = 0 := by
      unfold mantVal; norm_num
    rw [hz]
    simp [tfSign]
  have hy : (0 : ℚ) ∈ randomSignsCore 2 9125515503767732655 := by
    unfold randomSignsCore
    rw [hcore]
    simp only [List.map_cons, List.map_nil, hsign]
    simp
  rcases hall 0 hy with h | h <;> norm_num at h

/-- C6 (amended): every element of `random_signs(n, seed)` is in
`{-1, 0, +1}` and equals `sign(generate(n, seed) - 0.5)` cast to the
requested dtype; an element is `0` rather than `±1` exactly when the
underlying generated value equals `0.5`. -/
theorem spec_c6_amended (n : Nat) (hn : 0 < n) (seed : Int) :
    randomSigns (.pyInt (n : Int)) (.tensor .int64 seed) =
      .ok (randomSignsCore n seed) ∧
    randomSignsCore n seed =
      (cmwcCoreOut n seed).map (fun v => tfSign (v - 1 / 2)) ∧
    ∀ y ∈ randomSignsCore n seed, y = -1 ∨ y = 0 ∨ y = 1 := by
  refine ⟨?_, rfl, ?_⟩
  · have hpos : ¬ (n : Int) ≤ 0 := by omega
    simp [randomSigns, cmwcRandomSequence, hpos, SeedArg.isInt64Tensor,
      SeedArg.value, randomSignsCore, Except.map]
  · intro y hy
    obtain ⟨v, _, rfl⟩ := List.mem_map.mp hy
    unfold tfSign
    split_ifs <;> simp

/-- C6 witness: the amended theorem instantiated at `num_elements = 1`,
`seed = 0`. -/
theorem spec_c6_witness :
    0 < 1 ∧
    (randomSigns (.pyInt ((1 : Nat) : Int)) (.tensor .int64 0) =
        .ok (randomSignsCore 1 0) ∧
      randomSignsCore 1 0 =
        (cmwcCoreOut 1 0).map (fun v => tfSign (v - 1 / 2)) ∧
      ∀ y ∈ randomSignsCore 1 0, y = -1 ∨ y = 0 ∨ y = 1) :=
  ⟨Nat.one_pos, spec_c6_amended 1 Nat.one_pos 0⟩

/-- C7: the generator fails with a `ValueError` when `num_elements <= 0`,
and with a `TypeError` when the seed is not a 64-bit integer tensor; both
errors are produced by the synchronous argument checks, before any values
are generated. -/
theorem spec_c7 :
    (∀ (n : Int) (s : SeedArg), n ≤ 0 →
      cmwcRandomSequence (.pyInt n) s =
        .error (.valueErr "The num_elements argument must be positive.")) ∧
    (∀ (n : Int) (s : SeedArg), 0 < n → s.isInt64Tensor = false →
      cmwcRandomSequence (.pyInt n) s =
        .error (.typeErr "The seed argument must be a tf.int64 Tensor.")) := by
  constructor
  · intro n s hn
    simp [cmwcRandomSequence, hn]
  · intro n s hn hs
    have hpos : ¬ n ≤ 0 := by omega
    simp [cmwcRandomSequence, hpos, hs]

/-- C7 witness: `num_elements = 0` triggers the `ValueError`, and a
`tf.int32` seed tensor with `num_elements = 1` triggers the `TypeError`. -/
theorem spec_c7_witness :
    ((0 : Int) ≤ 0 ∧
      cmwcRandomSequence (.pyInt 0) (.tensor .int64 0) =
        .error (.valueErr "The num_elements argument must be positive.")) ∧
    ((0 : Int) < 1 ∧ (SeedArg.tensor .int32 0).isInt64Tensor = false ∧
      cmwcRandomSequence (.pyInt 1) (.tensor .int32 0) =
        .error (.typeErr "The seed argument must be a tf.int64 Tensor.")) :=
  ⟨⟨le_rfl, spec_c7.1 0 _ le_rfl⟩,
    ⟨Int.zero_lt_one, rfl, spec_c7.2 1 _ Int.zero_lt_one rfl⟩⟩

/-- C8: constructing the stochastic quantization stage fails with the
"integer between 1 and 16" error for `bits ∈ {0, 17, -1, 1.5}`, and
succeeds for every integer `bits` in `[1, 16]`. -/
theorem spec_c8 :
    prngStageCtor (.int 0) = .error "integer between 1 and 16" ∧
    prngStageCtor (.int 17) = .error "integer between 1 and 16" ∧
    prngStageCtor (.int (-1)) = .error "integer between 1 and 16" ∧
    prngStageCtor (.float (3 / 2)) = .error "integer between 1 and 16" ∧
    ∀ n : Int, 1 ≤ n → n ≤ 16 → prngStageCtor (.int n) = .ok n := by
  refine ⟨rfl, rfl, rfl, rfl, ?_⟩
  intro n h1 h2
  rw [prngStageCtor, if_pos ⟨h1, h2⟩]

/-- C8 witness: construction succeeds at `bits = 8`. -/
theorem spec_c8_witness :
    (1 : Int) ≤ 8 ∧ (8 : Int) ≤ 16 ∧ prngStageCtor (.int 8) = .ok 8 :=
  ⟨by decide, by decide, spec_c8.2.2.2.2 8 (by decide) (by decide)⟩

/-- C9: calling the bound encoder's `encode` with the state argument
omitted behaves exactly as calling it with a freshly computed
`initial_state()`. -/
theorem spec_c9 {X St P E U Sh : Type} (enc : CoreEncoder X St P E U Sh)
    (x : X) :
    simpleEncode enc x none = simpleEncode enc x (some (simpleInitialState enc)) :=
  rfl

/-- C10: the generator rejects any `num_elements` argument that is not a
Python integer with a `TypeError`, even when its value is positive, before
the positivity check is reached. -/
theorem spec_c10 (a : NumArg) (s : SeedArg) (h : a.isPyInt = false) :
    cmwcRandomSequence a s =
      .error (.typeErr "The num_elements argument must be a Python integer.") := by
  cases a with
  | pyInt n => simp [NumArg.isPyInt] at h
  | pyFloat q => rfl
  | npInt64 m => rfl

/-- C10 witness: `num_elements = 1.5` (a positive non-integer) is rejected
with the `TypeError`. -/
theorem spec_c10_witness :
    NumArg.isPyInt (.pyFloat (3 / 2)) = false ∧
    cmwcRandomSequence (.pyFloat (3 / 2)) (.tensor .int64 0) =
      .error (.typeErr "The num_elements argument must be a Python integer.") :=
  ⟨rfl, spec_c10 (.pyFloat (3 / 2)) (.tensor .int64 0) rfl⟩

end TensorEncoding
